import Mathlib

/-!
Verification of the Groth16 prover / key-generator core of this repository.

The Rust sources are shallowly embedded:
* `domain/primitives/linear.rs` — linear combinations over wires;
* `groth16/generator/assembly/eval.rs` — the key-generation QAP evaluator;
* `groth16/prover/system/builder.rs` — the proof `(A, B, C)` assembly.

Field elements (`E::Fr`) are modelled by an arbitrary commutative ring `Fr`
with decidable equality (the scalar field is a particular instance).  Group
elements of `G1`/`G2` appearing in the prover builder are modelled by
arbitrary modules over `Fr` (projective vs. affine representations of the
same point are identified, since the builder only uses the group operations).
-/

set_option linter.unusedSectionVars false

namespace Bellman

/-- The error enum of the crate (`SynthesisError`); only the variants used by
the embedded code matter here. -/
inductive SynthesisError where
  | AssignmentMissing
  | PolynomialDegreeTooLarge
  | MalformedWireSize
  | UnexpectedIdentity
  | IoError
  deriving DecidableEq

instance {e a : Type} [DecidableEq e] [DecidableEq a] : DecidableEq (Except e a) :=
  fun x y =>
    match x, y with
    | Except.ok u, Except.ok v =>
      if h : u = v then isTrue (h ▸ rfl) else isFalse fun hc => h (Except.ok.inj hc)
    | Except.error u, Except.error v =>
      if h : u = v then isTrue (h ▸ rfl) else isFalse fun hc => h (Except.error.inj hc)
    | Except.ok _, Except.error _ => isFalse fun hc => Except.noConfusion hc
    | Except.error _, Except.ok _ => isFalse fun hc => Except.noConfusion hc

/-- `Index` from `domain/primitives/linear.rs`: the index of either an input
variable or an auxiliary variable. -/
inductive Index where
  | Input (k : Nat)
  | Aux (k : Nat)
  deriving DecidableEq

/-- `Coefficient(Index)` from `domain/primitives/linear.rs`: a variable of the
constraint system, wrapping its `Index`. -/
structure Coefficient where
  idx : Index
  deriving DecidableEq

/-- `LinearCombination<E>(pub Vec<(Coefficient, E::Fr)>)` from
`domain/primitives/linear.rs`: an ordered sequence of `(variable, coefficient)`
pairs; duplicates are permitted and mean implicit addition. -/
structure LinearCombination (Fr : Type) where
  terms : List (Coefficient × Fr)

variable {Fr : Type} [CommRing Fr]

/-- `LinearCombination::zero()`. -/
def LinearCombination.zero : LinearCombination Fr := ⟨[]⟩

/-- `impl Add<(E::Fr, Coefficient)> for LinearCombination`:
`self.0.push((var, coeff))`. -/
def LinearCombination.addTerm (lc : LinearCombination Fr) (coeff : Fr)
    (var : Coefficient) : LinearCombination Fr :=
  ⟨lc.terms ++ [(var, coeff)]⟩

/-- `impl Sub<(E::Fr, Coefficient)> for LinearCombination`:
`coeff.negate(); self + (coeff, var)`. -/
def LinearCombination.subTerm (lc : LinearCombination Fr) (coeff : Fr)
    (var : Coefficient) : LinearCombination Fr :=
  lc.addTerm (-coeff) var

/-- `impl Add<(E::Fr, &LinearCombination)> for LinearCombination`: for every
term `s` of `other`, `tmp = s.1; tmp.mul_assign(&coeff); self = self + (tmp, s.0)`. -/
def LinearCombination.addScaled (lc : LinearCombination Fr) (coeff : Fr)
    (other : LinearCombination Fr) : LinearCombination Fr :=
  other.terms.foldl (fun acc s => acc.addTerm (s.2 * coeff) s.1) lc

/-- Modelled from the spec: the evaluation of a linear combination on a wire
assignment is the free-abelian-group sum `Σ coeff · value(wire)` over the term
list, duplicates adding (spec §3, "semantics are the free-abelian-group sum";
the repository's LC evaluator lives in the assembly layer, outside `src/`). -/
def LinearCombination.eval (lc : LinearCombination Fr) (asg : Index → Fr) : Fr :=
  lc.terms.foldl (fun acc t => acc + t.2 * asg t.1.idx) 0

/-!
## Key-generation evaluator (`groth16/generator/assembly/eval.rs`)

Group elements produced here all arise as `wnaf.scalar(k)` — the fixed base
(`g1` resp. `g2`) multiplied by the scalar `k` — or are the initial
`G::zero()` entries.  A projective point is therefore modelled by its
discrete log `log` with respect to its base, together with a flag `normd`
recording whether the representation is normalized (affine-equivalent, i.e.
`z ∈ 0, 1`): `G::zero()` (with `z = 0`) is normalized, while a point
accumulated by the windowed-NAF multiplication of a nonzero scalar is left in
general projective form (`z ∉ 0, 1`).  `batch_normalization` maps a point to
the normalized representation of the same point. -/

/-- A projective group element, abstracted to its discrete log w.r.t. the
fixed base of its group and a normalized-representation flag. -/
structure ProjPoint (Fr : Type) where
  log : Fr
  normd : Bool
  deriving DecidableEq

section KeyGen

variable [DecidableEq Fr]

/-- `G::zero()`: the group identity (`z = 0`, a normalized representation). -/
def ProjPoint.zero : ProjPoint Fr := ⟨0, true⟩

/-- `is_zero()` on a projective point. -/
def ProjPoint.is_zero (p : ProjPoint Fr) : Bool := decide (p.log = 0)

/-- `into_affine()`: the affine form of a point, identified with its log. -/
def ProjPoint.into_affine (p : ProjPoint Fr) : Fr := p.log

/-- One entry of the batch normalization: the same point in normalized
representation. -/
def ProjPoint.normalize (p : ProjPoint Fr) : ProjPoint Fr := ⟨p.log, true⟩

/-- `wnaf.scalar(k.into_repr())`: windowed-NAF multiplication of the fixed
base by `k`.  Multiplying by zero returns `G::zero()` (normalized); a nonzero
scalar leaves the accumulator in general projective form. -/
def wnafScalar (k : Fr) : ProjPoint Fr := ⟨k, decide (k = 0)⟩

/-- `KeyPairWires`: the three QAP coefficient-matrix columns; `a_t w` is the
list of `(coeff, constraint_index)` pairs of wire `w` in the A matrix (source
fields `at`, `bt`, `ct`; `at` is a reserved word in Lean). -/
structure KeyPairWires (Fr : Type) where
  a_t : List (List (Fr × Nat))
  b_t : List (List (Fr × Nat))
  c_t : List (List (Fr × Nat))

/-- `EvaluationWriter`: the four mutable slices the evaluator writes
(`a`, `b_g1`, `b_g2`, `ext`), as the lists of their current contents. -/
structure EvaluationWriter (Fr : Type) where
  a : List (ProjPoint Fr)
  b_g1 : List (ProjPoint Fr)
  b_g2 : List (ProjPoint Fr)
  ext : List (ProjPoint Fr)
  deriving DecidableEq

/-- `sanity_check(qap_polynomials, writer)`: all lengths must agree with
`writer.a.len()`.  Note it receives no Lagrange-coefficient array, so it
cannot (and does not) bound the constraint indices stored in the columns. -/
def sanity_check (qap : KeyPairWires Fr) (writer : EvaluationWriter Fr) : Bool :=
  writer.a.length == qap.a_t.length &&
  writer.a.length == qap.b_t.length &&
  writer.a.length == qap.c_t.length &&
  writer.a.length == writer.b_g1.length &&
  writer.a.length == writer.b_g2.length &&
  writer.a.length == writer.ext.length

/-- `eval_at_tau(powers_of_tau, wires)`: fold over the wire's
`(coeff, constraint_index)` entries of `acc + powers_of_tau[idx] * coeff`.
The source indexes `powers_of_tau[*idx]` with no bounds check and would panic
out of bounds; the panic is modelled by `none` (via `powers_of_tau[idx]?`). -/
def eval_at_tau (powers_of_tau : List Fr) (wires : List (Fr × Nat)) : Option Fr :=
  wires.foldl
    (fun acc cw =>
      acc.bind fun a => (powers_of_tau[cw.2]?).map fun e => a + e * cw.1)
    (some 0)

/-- The body of the `multi_thread!` loop of `eval` for one wire: evaluate the
three QAP polynomials at `τ`, write the A query if `A_w(τ) ≠ 0`, the two
B queries if `B_w(τ) ≠ 0`, and always write
`ext = g1^((A_w(τ)·β + B_w(τ)·α + C_w(τ)) · inv)`. -/
def evalWire (lag : List Fr) (inv alpha beta : Fr)
    (cell : ProjPoint Fr × ProjPoint Fr × ProjPoint Fr × ProjPoint Fr)
    (poly : List (Fr × Nat) × List (Fr × Nat) × List (Fr × Nat)) :
    Option (ProjPoint Fr × ProjPoint Fr × ProjPoint Fr × ProjPoint Fr) :=
  (eval_at_tau lag poly.1).bind fun atv =>
  (eval_at_tau lag poly.2.1).bind fun btv =>
  (eval_at_tau lag poly.2.2).map fun ctv =>
    let a := if atv = 0 then cell.1 else wnafScalar atv
    let bg1 := if btv = 0 then cell.2.1 else wnafScalar btv
    let bg2 := if btv = 0 then cell.2.2.1 else wnafScalar btv
    let e := (atv * beta + btv * alpha + ctv) * inv
    (a, bg1, bg2, wnafScalar e)

/-- The zipped per-wire iteration of `eval` over the flattened writer and the
flattened polynomial columns (zip semantics: iteration stops at the shorter
list, exactly as the Rust zip does). -/
def evalLoop (lag : List Fr) (inv alpha beta : Fr) :
    List (ProjPoint Fr × ProjPoint Fr × ProjPoint Fr × ProjPoint Fr) →
    List (List (Fr × Nat) × List (Fr × Nat) × List (Fr × Nat)) →
    Option (List (ProjPoint Fr × ProjPoint Fr × ProjPoint Fr × ProjPoint Fr))
  | c :: cs, p :: ps =>
    (evalWire lag inv alpha beta c p).bind fun c2 =>
    (evalLoop lag inv alpha beta cs ps).map fun rest => c2 :: rest
  | _, _ => some []

/-- `EvaluationWriter::flatten` / `FlatEvaluationWriter::from`: zip the four
slices into one list of quadruples. -/
def EvaluationWriter.flatten (w : EvaluationWriter Fr) :
    List (ProjPoint Fr × ProjPoint Fr × ProjPoint Fr × ProjPoint Fr) :=
  w.a.zip (w.b_g1.zip (w.b_g2.zip w.ext))

/-- `KeyPairWires::flatten`: zip the three polynomial columns. -/
def KeyPairWires.flatten (q : KeyPairWires Fr) :
    List (List (Fr × Nat) × List (Fr × Nat) × List (Fr × Nat)) :=
  q.a_t.zip (q.b_t.zip q.c_t)

/-- Recover the four writer slices from the flattened quadruple list (the
writes go through the mutable references back into the original slices). -/
def unflatten (cells : List (ProjPoint Fr × ProjPoint Fr × ProjPoint Fr × ProjPoint Fr)) :
    EvaluationWriter Fr :=
  { a := cells.map (fun c => c.1)
    b_g1 := cells.map (fun c => c.2.1)
    b_g2 := cells.map (fun c => c.2.2.1)
    ext := cells.map (fun c => c.2.2.2) }

/-- The four fresh local buffers that `FlatEvaluationWriter::batch_normalization`
fills with copies of the writer's points (`buf_a.push(*a)` and so on) and then
batch-normalizes.  The function's body ends there: the buffers are dropped. -/
def batchNormalizationBuffers (w : EvaluationWriter Fr) : EvaluationWriter Fr :=
  { a := w.a.map ProjPoint.normalize
    b_g1 := w.b_g1.map ProjPoint.normalize
    b_g2 := w.b_g2.map ProjPoint.normalize
    ext := w.ext.map ProjPoint.normalize }

/-- `FlatEvaluationWriter::batch_normalization(self)`: consumes the flattened
writer, copies every point out into the local buffers of
`batchNormalizationBuffers`, normalizes those buffers, and returns `()`.
Nothing is written back through the writer's mutable references, so the
writer's own storage — the value this embedding returns — is unchanged. -/
def FlatEvaluationWriter.batch_normalization (w : EvaluationWriter Fr) :
    EvaluationWriter Fr :=
  w

/-- `eval(wnaf, lagrange_coeffs, qap_polynomials, writer, inv, alpha, beta)`
from `groth16/generator/assembly/eval.rs`.  Returns the final contents of the
writer slices together with the `Result<()>`; `none` models the panic of an
out-of-bounds `powers_of_tau[*idx]` access inside the loop. -/
def eval (lag : List Fr) (qap : KeyPairWires Fr) (writer : EvaluationWriter Fr)
    (inv alpha beta : Fr) :
    Option (EvaluationWriter Fr × Except SynthesisError Unit) :=
  if sanity_check qap writer = false then
    some (writer, Except.error SynthesisError.MalformedWireSize)
  else
    (evalLoop lag inv alpha beta writer.flatten qap.flatten).map fun cells =>
      (FlatEvaluationWriter.batch_normalization (unflatten cells), Except.ok ())

/-- `WireEvaluation::new(key_pair)` initialises every entry of its vectors to
`G::zero()`; this is the writer state `eval` starts from, for a slice of `n`
wires. -/
def identityWriter (n : Nat) : EvaluationWriter Fr :=
  { a := List.replicate n ProjPoint.zero
    b_g1 := List.replicate n ProjPoint.zero
    b_g2 := List.replicate n ProjPoint.zero
    ext := List.replicate n ProjPoint.zero }

/-- `WireEvaluation`: the five result vectors of key generation; for aux wires
the `ext` slice handed to `eval` is `l`, for input wires it is `ic`. -/
structure WireEvaluation (Fr : Type) where
  a : List (ProjPoint Fr)
  b_g1 : List (ProjPoint Fr)
  b_g2 : List (ProjPoint Fr)
  ic : List (ProjPoint Fr)
  l : List (ProjPoint Fr)

/-- `WireEvaluation::is_unconstrained`: scan `l` and report whether some entry
is the group identity. -/
def WireEvaluation.is_unconstrained (we : WireEvaluation Fr) : Bool :=
  we.l.any fun e => e.is_zero

/-- The iterator chain `.into_iter().filter(|e| !e.is_zero()).map(|e| e.into_affine())`
applied to one vector. -/
def filterNonZeroMapAffine : List (ProjPoint Fr) → List Fr
  | [] => []
  | p :: rest =>
    if p.is_zero then filterNonZeroMapAffine rest
    else p.into_affine :: filterNonZeroMapAffine rest

/-- `WireEvaluation::filter_non_zero_and_map_to_affine`: the `map_to_affine!`
macro applied to `(self.l, self.a, self.b_g1, self.b_g2)`, in that order. -/
def WireEvaluation.filter_non_zero_and_map_to_affine (we : WireEvaluation Fr) :
    List Fr × List Fr × List Fr × List Fr :=
  (filterNonZeroMapAffine we.l, filterNonZeroMapAffine we.a,
   filterNonZeroMapAffine we.b_g1, filterNonZeroMapAffine we.b_g2)

end KeyGen

/-!
## Prover proof assembly (`groth16/prover/system/builder.rs`)

`G1` and `G2` are arbitrary modules over the scalar ring: `p.mul(s)` is `s • p`,
`add_assign` / `add_assign_mixed` are `+` (the affine/projective distinction is
representation only and irrelevant to the assembled value). -/

/-- Modelled from the spec: `VerifyingKey = αG1, βG1, βG2, γG2, δG1, δG2, ic`
(spec §3; the `VerifyingKey` struct itself lives outside `src/`, in
`crate::groth16`). -/
structure VerifyingKey (G1 G2 : Type) where
  alpha_g1 : G1
  beta_g1 : G1
  beta_g2 : G2
  gamma_g2 : G2
  delta_g1 : G1
  delta_g2 : G2
  ic : List G1

/-- `source::Answer`: the MSM partial sums over the input half. -/
structure Answer (G1 G2 : Type) where
  a : G1
  b1 : G1
  b2 : G2

/-- `source::Auxiliary`: the MSM partial sums over the aux half. -/
structure Auxiliary (G1 G2 : Type) where
  a : G1
  b1 : G1
  b2 : G2

/-- `Builder`: the state `try_build` consumes. -/
structure Builder (Fr G1 G2 : Type) where
  vk : VerifyingKey G1 G2
  r : Fr
  s : Fr
  h : G1
  l : G1
  answer : Answer G1 G2
  aux : Auxiliary G1 G2

section Prover

variable {G1 G2 : Type} [AddCommGroup G1] [Module Fr G1]
variable [AddCommGroup G2] [Module Fr G2]

/-- `Builder::try_ga`: `ga = δG1·r; ga += αG1; answer.a += aux.a; ga += answer.a`.
The mutation of `answer.a` persists in the returned builder. -/
def Builder.try_ga (b : Builder Fr G1 G2) : Builder Fr G1 G2 × G1 :=
  let ga0 := b.r • b.vk.delta_g1 + b.vk.alpha_g1
  let a2 := b.answer.a + b.aux.a
  ({ b with answer := { b.answer with a := a2 } }, ga0 + a2)

/-- `Builder::try_gb`: `gb = δG2·s; gb += βG2; answer.b2 += aux.b2; gb += answer.b2`. -/
def Builder.try_gb (b : Builder Fr G1 G2) : Builder Fr G1 G2 × G2 :=
  let gb0 := b.s • b.vk.delta_g2 + b.vk.beta_g2
  let b2 := b.answer.b2 + b.aux.b2
  ({ b with answer := { b.answer with b2 := b2 } }, gb0 + b2)

/-- `Builder::try_gc`: assembles `C` from the builder as left by
`try_ga`/`try_gb`; note it multiplies the `answer.a` field as it stands,
i.e. after `try_ga` added `aux.a` into it. -/
def Builder.try_gc (b : Builder Fr G1 G2) : G1 :=
  let delta_rs := (b.r * b.s) • b.vk.delta_g1
  let a_mul_s := b.s • b.vk.alpha_g1
  let b_mul_r := b.r • b.vk.beta_g1
  let gc0 := delta_rs + a_mul_s + b_mul_r
  let gc1 := gc0 + b.s • b.answer.a
  let gc2 := gc1 + b.r • (b.answer.b1 + b.aux.b1)
  gc2 + b.h + b.l

/-- `Builder::try_build`: runs `try_ga`, `try_gb`, `try_gc` in order on the
mutating builder and returns `Ok((ga, gb, gc))`. -/
def Builder.try_build (b : Builder Fr G1 G2) :
    Except SynthesisError (G1 × G2 × G1) :=
  let stepA := b.try_ga
  let stepB := stepA.1.try_gb
  Except.ok (stepA.2, stepB.2, stepB.1.try_gc)

/-- `try_vk(params)`: fetch the verifying key from the parameter source and
reject it when `δG1` or `δG2` is the group identity (`is_zero`), signalling a
subversion-CRS attack. -/
def try_vk (getVk : Except SynthesisError (VerifyingKey G1 G2))
    [DecidableEq G1] [DecidableEq G2] :
    Except SynthesisError (VerifyingKey G1 G2) :=
  getVk.bind fun vk =>
    if vk.delta_g1 = 0 ∨ vk.delta_g2 = 0 then
      Except.error SynthesisError.UnexpectedIdentity
    else Except.ok vk

end Prover

/-!
## Concrete instances used as evaluation witnesses -/

/-- A one-wire QAP whose wire appears once in the A column and once in the
C column, and not at all in the B column. -/
def qapEx : KeyPairWires Int := ⟨[[(3, 0)]], [[]], [[(1, 0)]]⟩

/-- The writer contents `eval` produces on `qapEx` (Lagrange array `[2]`,
`inv = 5`, `α = 7`, `β = 11`). -/
def writerEx : EvaluationWriter Int :=
  ⟨[⟨6, false⟩], [⟨0, true⟩], [⟨0, true⟩], [⟨340, false⟩]⟩

/-- A one-wire QAP whose wire is referenced by no constraint at all. -/
def qapUnconstrained : KeyPairWires Int := ⟨[[]], [[]], [[]]⟩

/-- The writer contents `eval` produces on `qapUnconstrained`. -/
def writerUnconstrained : EvaluationWriter Int :=
  ⟨[⟨0, true⟩], [⟨0, true⟩], [⟨0, true⟩], [⟨0, true⟩]⟩

/-- A one-wire QAP whose wire appears once in the A column with coefficient 1
on constraint 0: the minimal input on which `eval` leaves a non-normalized
point in the writer. -/
def qapBug : KeyPairWires Int := ⟨[[(1, 0)]], [[]], [[]]⟩

/-- The writer contents `eval` produces on `qapBug` (Lagrange array `[1]`,
`inv = α = β = 1`): the A entry and the ext entry are left in non-normalized
projective form. -/
def writerBug : EvaluationWriter Int :=
  ⟨[⟨1, false⟩], [⟨0, true⟩], [⟨0, true⟩], [⟨1, false⟩]⟩

/-!
## Theorems

### Linear-combination algebra (`domain/primitives/linear.rs`) -/

theorem foldl_eval_shift (asg : Index → Fr) (a : Fr) (l : List (Coefficient × Fr)) :
    l.foldl (fun acc t => acc + t.2 * asg t.1.idx) a
      = a + l.foldl (fun acc t => acc + t.2 * asg t.1.idx) 0 := by
  induction l generalizing a with
  | nil => simp
  | cons t ts ih =>
    simp only [List.foldl_cons]
    rw [ih (a + t.2 * asg t.1.idx), ih (0 + t.2 * asg t.1.idx)]
    ring

/-- C7: for every linear combination `LC`, pair `a = (coeff, wire)` and wire
assignment, evaluating `(LC + a) - a` under the free-abelian-group-sum
semantics yields the same field element as evaluating `LC`. -/
theorem lc_add_sub_cancel (lc : LinearCombination Fr) (c : Fr) (v : Coefficient)
    (asg : Index → Fr) :
    ((lc.addTerm c v).subTerm c v).eval asg = lc.eval asg := by
  simp only [LinearCombination.subTerm, LinearCombination.addTerm,
    LinearCombination.eval, List.append_assoc, List.foldl_append, List.foldl_cons,
    List.foldl_nil]
  ring

/-- C8: for every pair of linear combinations `LC₁`, `LC₂`, scalar `c` and wire
assignment, the evaluation of `LC₁ + (c, LC₂)` (which scalar-scales each term of
`LC₂` by `c` and appends it) equals `eval LC₁ + c · eval LC₂`. -/
theorem lc_add_scaled_distributes (lc1 lc2 : LinearCombination Fr) (c : Fr)
    (asg : Index → Fr) :
    (lc1.addScaled c lc2).eval asg = lc1.eval asg + c * lc2.eval asg := by
  rcases lc2 with ⟨l2⟩
  induction l2 generalizing lc1 with
  | nil =>
    simp [LinearCombination.addScaled, LinearCombination.eval]
  | cons t ts ih =>
    have h1 : (lc1.addScaled c ⟨t :: ts⟩)
        = (lc1.addTerm (t.2 * c) t.1).addScaled c ⟨ts⟩ := by
      simp [LinearCombination.addScaled]
    rw [h1, ih (lc1.addTerm (t.2 * c) t.1)]
    have h2 : (lc1.addTerm (t.2 * c) t.1).eval asg
        = lc1.eval asg + t.2 * c * asg t.1.idx := by
      simp only [LinearCombination.addTerm, LinearCombination.eval,
        List.foldl_append, List.foldl_cons, List.foldl_nil]
    have h3 : LinearCombination.eval (⟨t :: ts⟩ : LinearCombination Fr) asg
        = t.2 * asg t.1.idx + LinearCombination.eval (⟨ts⟩ : LinearCombination Fr) asg := by
      simp only [LinearCombination.eval, List.foldl_cons]
      rw [foldl_eval_shift asg (0 + t.2 * asg t.1.idx)]
      ring
    rw [h2, h3]
    ring

/-!
### Prover proof assembly -/

section ProverLemmas

variable {G1 G2 : Type} [AddCommGroup G1] [Module Fr G1]
variable [AddCommGroup G2] [Module Fr G2]

/-- C1: `Builder::try_build` returns the triple
`A = δG1·r + αG1 + (answer.a + aux.a)`,
`B = δG2·s + βG2 + (answer.b2 + aux.b2)`,
`C = δG1·(r·s) + αG1·s + βG1·r + s·(answer.a + aux.a) + r·(answer.b1 + aux.b1) + h + l`;
the value multiplied by `s` inside `C` is `answer.a` as accumulated by the
in-place `aux.a` addition performed while assembling `A`. -/
theorem try_build_assembles_proof_triple (b : Builder Fr G1 G2) :
    b.try_build = Except.ok
      (b.r • b.vk.delta_g1 + b.vk.alpha_g1 + (b.answer.a + b.aux.a),
       b.s • b.vk.delta_g2 + b.vk.beta_g2 + (b.answer.b2 + b.aux.b2),
       (b.r * b.s) • b.vk.delta_g1 + b.s • b.vk.alpha_g1 + b.r • b.vk.beta_g1
         + b.s • (b.answer.a + b.aux.a) + b.r • (b.answer.b1 + b.aux.b1)
         + b.h + b.l) :=
  rfl

/-- C4: loading the verifying key fails with `UnexpectedIdentity` exactly when
`δG1` or `δG2` is the group identity, and otherwise returns the key unchanged;
an error of the parameter source itself is propagated as is. -/
theorem try_vk_rejects_identity_delta
    [DecidableEq G1] [DecidableEq G2] (vk : VerifyingKey G1 G2) :
    (try_vk (Except.ok vk) = Except.error SynthesisError.UnexpectedIdentity
        ↔ (vk.delta_g1 = 0 ∨ vk.delta_g2 = 0)) ∧
    (try_vk (Except.ok vk) = Except.ok vk
        ↔ ¬(vk.delta_g1 = 0 ∨ vk.delta_g2 = 0)) ∧
    (∀ e, try_vk (Except.error e : Except SynthesisError (VerifyingKey G1 G2))
        = Except.error e) := by
  refine ⟨?_, ?_, fun e => rfl⟩ <;> by_cases h : vk.delta_g1 = 0 ∨ vk.delta_g2 = 0 <;>
    simp [try_vk, Except.bind, h]

end ProverLemmas

/-!
### Key-generation evaluator -/

section KeyGenLemmas

variable [DecidableEq Fr]

theorem option_isSome_map {α β : Type} (f : α → β) (x : Option α) :
    (Option.map f x).isSome = x.isSome := by
  cases x <;> rfl

theorem getElem?_isSome_iff_lt {α : Type} (l : List α) (i : Nat) :
    l[i]?.isSome = true ↔ i < l.length := by
  cases Nat.lt_or_ge i l.length with
  | inl h => simp [List.getElem?_eq_getElem h, h]
  | inr h => simp [List.getElem?_eq_none h, Nat.not_lt.mpr h]

theorem sanity_check_eq_true_iff (qap : KeyPairWires Fr) (w : EvaluationWriter Fr) :
    sanity_check qap w = true ↔
      (qap.a_t.length = w.a.length ∧ qap.b_t.length = w.a.length ∧
       qap.c_t.length = w.a.length ∧ w.b_g1.length = w.a.length ∧
       w.b_g2.length = w.a.length ∧ w.ext.length = w.a.length) := by
  simp only [sanity_check, Bool.and_eq_true, beq_iff_eq]
  omega

/-- C5: `eval` returns `Err(MalformedWireSize)`, with the writer untouched,
exactly when the four writer slices and the three polynomial columns do not
all have equal length. -/
theorem eval_malformed_wire_size_iff (lag : List Fr) (qap : KeyPairWires Fr)
    (writer : EvaluationWriter Fr) (inv alpha beta : Fr) :
    eval lag qap writer inv alpha beta
        = some (writer, Except.error SynthesisError.MalformedWireSize)
      ↔ ¬(qap.a_t.length = writer.a.length ∧ qap.b_t.length = writer.a.length ∧
          qap.c_t.length = writer.a.length ∧ writer.b_g1.length = writer.a.length ∧
          writer.b_g2.length = writer.a.length ∧ writer.ext.length = writer.a.length) := by
  rw [← sanity_check_eq_true_iff qap writer]
  unfold eval
  by_cases h : sanity_check qap writer = true
  · simp only [h, Bool.true_eq_false, if_neg, Bool.false_eq_true, not_true_eq_false,
      iff_false]
    rcases hl : evalLoop lag inv alpha beta writer.flatten qap.flatten with _ | cells <;>
      simp [hl]
  · have h2 : sanity_check qap writer = false := by
      revert h
      cases sanity_check qap writer <;> simp
    simp [h2]

theorem eval_at_tau_foldl_none (lag : List Fr) (ws : List (Fr × Nat)) :
    ws.foldl
      (fun acc cw => acc.bind fun a => (lag[cw.2]?).map fun e => a + e * cw.1)
      none = none := by
  induction ws with
  | nil => rfl
  | cons cw ws ih => simpa using ih

theorem eval_at_tau_foldl_isSome (lag : List Fr) (ws : List (Fr × Nat)) (a : Fr) :
    (ws.foldl
      (fun acc cw => acc.bind fun x => (lag[cw.2]?).map fun e => x + e * cw.1)
      (some a)).isSome = true
      ↔ ∀ cw ∈ ws, cw.2 < lag.length := by
  induction ws generalizing a with
  | nil => simp
  | cons cw ws ih =>
    simp only [List.foldl_cons]
    rcases hx : lag[cw.2]? with _ | e
    · have hb : ¬cw.2 < lag.length := by
        rw [← getElem?_isSome_iff_lt, hx]
        simp
      simp only [Option.map_none', Option.some_bind]
      rw [eval_at_tau_foldl_none lag ws]
      simp [hb]
    · have hb : cw.2 < lag.length := by
        rw [← getElem?_isSome_iff_lt, hx]
        rfl
      simp only [Option.map_some', Option.some_bind]
      rw [ih (a + e * cw.1)]
      simp [hb]

/-- `eval_at_tau` succeeds exactly when every stored constraint index is in
bounds for the Lagrange-coefficient array. -/
theorem eval_at_tau_isSome_iff (lag : List Fr) (ws : List (Fr × Nat)) :
    (eval_at_tau lag ws).isSome = true ↔ ∀ cw ∈ ws, cw.2 < lag.length :=
  eval_at_tau_foldl_isSome lag ws 0

theorem evalWire_isSome_iff (lag : List Fr) (inv alpha beta : Fr)
    (cell : ProjPoint Fr × ProjPoint Fr × ProjPoint Fr × ProjPoint Fr)
    (poly : List (Fr × Nat) × List (Fr × Nat) × List (Fr × Nat)) :
    (evalWire lag inv alpha beta cell poly).isSome = true ↔
      ((eval_at_tau lag poly.1).isSome = true ∧
       (eval_at_tau lag poly.2.1).isSome = true ∧
       (eval_at_tau lag poly.2.2).isSome = true) := by
  rcases h1 : eval_at_tau lag poly.1 with _ | atv <;>
    rcases h2 : eval_at_tau lag poly.2.1 with _ | btv <;>
      rcases h3 : eval_at_tau lag poly.2.2 with _ | ctv <;>
        simp [evalWire, h1, h2, h3]

theorem evalLoop_isSome_iff (lag : List Fr) (inv alpha beta : Fr) :
    ∀ (cs : List (ProjPoint Fr × ProjPoint Fr × ProjPoint Fr × ProjPoint Fr))
      (ps : List (List (Fr × Nat) × List (Fr × Nat) × List (Fr × Nat))),
      (evalLoop lag inv alpha beta cs ps).isSome = true ↔
        ∀ (i : Nat) c p, cs[i]? = some c → ps[i]? = some p →
          (evalWire lag inv alpha beta c p).isSome = true
  | [], ps => by
    constructor
    · intro _ i c p hc hp
      simp at hc
    · intro _
      simp [evalLoop]
  | c0 :: cs, [] => by
    constructor
    · intro _ i c p hc hp
      simp at hp
    · intro _
      simp [evalLoop]
  | c0 :: cs, p0 :: ps => by
    have ih := evalLoop_isSome_iff lag inv alpha beta cs ps
    constructor
    · intro h i c p hc hp
      simp only [evalLoop] at h
      rcases hw : evalWire lag inv alpha beta c0 p0 with _ | c2
      · rw [hw] at h
        simp at h
      · rcases hrest : evalLoop lag inv alpha beta cs ps with _ | rest
        · rw [hw, hrest] at h
          simp at h
        · cases i with
          | zero =>
            simp only [List.getElem?_cons_zero, Option.some.injEq] at hc hp
            rw [← hc, ← hp, hw]
            rfl
          | succ i =>
            simp only [List.getElem?_cons_succ] at hc hp
            exact (ih.mp (by rw [hrest]; rfl)) i c p hc hp
    · intro h
      simp only [evalLoop]
      rcases hw : evalWire lag inv alpha beta c0 p0 with _ | c2
      · have := h 0 c0 p0 (by simp) (by simp)
        rw [hw] at this
        simp at this
      · rcases hrest : evalLoop lag inv alpha beta cs ps with _ | rest
        · have : (evalLoop lag inv alpha beta cs ps).isSome = true := by
            refine ih.mpr fun i c p hc hp => ?_
            exact h (i + 1) c p (by simpa using hc) (by simpa using hp)
          rw [hrest] at this
          simp at this
        · rfl

theorem evalLoop_getElem (lag : List Fr) (inv alpha beta : Fr) :
    ∀ (cs : List (ProjPoint Fr × ProjPoint Fr × ProjPoint Fr × ProjPoint Fr))
      (ps : List (List (Fr × Nat) × List (Fr × Nat) × List (Fr × Nat)))
      (cells : List (ProjPoint Fr × ProjPoint Fr × ProjPoint Fr × ProjPoint Fr)),
      evalLoop lag inv alpha beta cs ps = some cells →
      ∀ (i : Nat) c p, cs[i]? = some c → ps[i]? = some p →
        ∃ c2, cells[i]? = some c2 ∧ evalWire lag inv alpha beta c p = some c2
  | [], _, _, _, i, c, p, hc, _ => by simp at hc
  | _ :: _, [], _, _, i, c, p, _, hp => by simp at hp
  | c0 :: cs, p0 :: ps, cells, h, i, c, p, hc, hp => by
    simp only [evalLoop, Option.bind_eq_some, Option.map_eq_some'] at h
    obtain ⟨c2, hw, rest, hrest, hcells⟩ := h
    subst hcells
    cases i with
    | zero =>
      simp only [List.getElem?_cons_zero, Option.some.injEq] at hc hp
      exact ⟨c2, by simp, by rw [← hc, ← hp]; exact hw⟩
    | succ i =>
      simp only [List.getElem?_cons_succ] at hc hp ⊢
      exact evalLoop_getElem lag inv alpha beta cs ps rest hrest i c p hc hp

theorem identityWriter_flatten_getElem (n i : Nat) (hi : i < n) :
    (identityWriter n : EvaluationWriter Fr).flatten[i]?
      = some (ProjPoint.zero, ProjPoint.zero, ProjPoint.zero, ProjPoint.zero) := by
  have hr : (List.replicate n (ProjPoint.zero : ProjPoint Fr))[i]? = some ProjPoint.zero := by
    simp [List.getElem?_replicate, hi]
  unfold identityWriter EvaluationWriter.flatten
  rw [List.getElem?_zip_eq_some]
  refine ⟨hr, ?_⟩
  rw [List.getElem?_zip_eq_some]
  refine ⟨hr, ?_⟩
  rw [List.getElem?_zip_eq_some]
  exact ⟨hr, hr⟩

theorem keyPairWires_flatten_getElem (qap : KeyPairWires Fr) (i : Nat)
    (wA wB wC : List (Fr × Nat))
    (hA : qap.a_t[i]? = some wA) (hB : qap.b_t[i]? = some wB)
    (hC : qap.c_t[i]? = some wC) :
    qap.flatten[i]? = some (wA, wB, wC) := by
  unfold KeyPairWires.flatten
  rw [List.getElem?_zip_eq_some]
  refine ⟨hA, ?_⟩
  rw [List.getElem?_zip_eq_some]
  exact ⟨hB, hC⟩

/-- Per-index characterization of a successful `eval` run started from the
all-identity writer: what each of the four slices holds at wire `i`. -/
theorem eval_ok_getElem (lag : List Fr) (qap : KeyPairWires Fr) (n : Nat)
    (inv alpha beta : Fr) (w2 : EvaluationWriter Fr)
    (h : eval lag qap (identityWriter n) inv alpha beta = some (w2, Except.ok ()))
    (i : Nat) (hi : i < n)
    (wA wB wC : List (Fr × Nat))
    (hA : qap.a_t[i]? = some wA) (hB : qap.b_t[i]? = some wB)
    (hC : qap.c_t[i]? = some wC)
    (atv btv ctv : Fr)
    (hat : eval_at_tau lag wA = some atv) (hbt : eval_at_tau lag wB = some btv)
    (hct : eval_at_tau lag wC = some ctv) :
    w2.a[i]? = some (if atv = 0 then ProjPoint.zero else wnafScalar atv) ∧
    w2.b_g1[i]? = some (if btv = 0 then ProjPoint.zero else wnafScalar btv) ∧
    w2.b_g2[i]? = some (if btv = 0 then ProjPoint.zero else wnafScalar btv) ∧
    w2.ext[i]? = some (wnafScalar ((atv * beta + btv * alpha + ctv) * inv)) := by
  unfold eval at h
  rcases hsc : sanity_check qap (identityWriter n) with _ | _
  · rw [hsc] at h
    simp at h
  · rw [hsc] at h
    simp only [Bool.true_eq_false, if_neg, Option.map_eq_some',
      Bool.false_eq_true, if_false] at h
    obtain ⟨cells, hloop, hpair⟩ := h
    have hw2 : FlatEvaluationWriter.batch_normalization (unflatten cells) = w2 := by
      have := congrArg Prod.fst hpair
      simpa using this
    obtain ⟨c2, hcell, hwire⟩ :=
      evalLoop_getElem lag inv alpha beta
        (identityWriter n).flatten qap.flatten cells hloop i
        (ProjPoint.zero, ProjPoint.zero, ProjPoint.zero, ProjPoint.zero)
        (wA, wB, wC)
        (identityWriter_flatten_getElem n i hi)
        (keyPairWires_flatten_getElem qap i wA wB wC hA hB hC)
    have hc2 : c2 = (if atv = 0 then ProjPoint.zero else wnafScalar atv,
        if btv = 0 then ProjPoint.zero else wnafScalar btv,
        if btv = 0 then ProjPoint.zero else wnafScalar btv,
        wnafScalar ((atv * beta + btv * alpha + ctv) * inv)) := by
      have := hwire
      simp only [evalWire, hat, hbt, hct, Option.some_bind, Option.map_some',
        Option.some.injEq] at this
      exact this.symm
    subst hc2
    rw [← hw2]
    unfold FlatEvaluationWriter.batch_normalization unflatten
    simp [List.getElem?_map, hcell]

/-- C3: for every wire of a successful `eval` run started from the all-identity
writer: `a[w]` is left at the identity when `A_w(τ) = 0` and otherwise set to
`g1^(A_w(τ))`; `b_g1[w]` and `b_g2[w]` are both set (to `g1^(B_w(τ))` resp.
`g2^(B_w(τ))`) exactly when `B_w(τ) ≠ 0`, otherwise both stay at the identity;
and `ext[w]` is always set to `g1^((β·A_w(τ) + α·B_w(τ) + C_w(τ)) · inv)`,
`inv` being the caller-supplied inverse. -/
theorem eval_writes_wire_queries (lag : List Fr) (qap : KeyPairWires Fr) (n : Nat)
    (inv alpha beta : Fr) (w2 : EvaluationWriter Fr)
    (h : eval lag qap (identityWriter n) inv alpha beta = some (w2, Except.ok ()))
    (i : Nat) (hi : i < n)
    (wA wB wC : List (Fr × Nat))
    (hA : qap.a_t[i]? = some wA) (hB : qap.b_t[i]? = some wB)
    (hC : qap.c_t[i]? = some wC)
    (atv btv ctv : Fr)
    (hat : eval_at_tau lag wA = some atv) (hbt : eval_at_tau lag wB = some btv)
    (hct : eval_at_tau lag wC = some ctv) :
    w2.a[i]? = some (if atv = 0 then ProjPoint.zero else wnafScalar atv) ∧
    w2.b_g1[i]? = some (if btv = 0 then ProjPoint.zero else wnafScalar btv) ∧
    w2.b_g2[i]? = some (if btv = 0 then ProjPoint.zero else wnafScalar btv) ∧
    w2.ext[i]? = some (wnafScalar ((beta * atv + alpha * btv + ctv) * inv)) := by
  have hmain := eval_ok_getElem lag qap n inv alpha beta w2 h i hi wA wB wC hA hB hC
    atv btv ctv hat hbt hct
  have harg : (atv * beta + btv * alpha + ctv) * inv
      = (beta * atv + alpha * btv + ctv) * inv := by ring
  rw [harg] at hmain
  exact hmain

theorem eval_writes_wire_queries_witness :
    eval [(2 : Int)] qapEx (identityWriter 1) 5 7 11
        = some (writerEx, Except.ok ()) ∧
    (writerEx.a[0]? = some (if (6 : Int) = 0 then ProjPoint.zero else wnafScalar 6) ∧
     writerEx.b_g1[0]? = some (if (0 : Int) = 0 then ProjPoint.zero else wnafScalar 0) ∧
     writerEx.b_g2[0]? = some (if (0 : Int) = 0 then ProjPoint.zero else wnafScalar 0) ∧
     writerEx.ext[0]? = some (wnafScalar ((11 * 6 + 7 * 0 + 2) * 5))) :=
  ⟨by decide,
   eval_writes_wire_queries [2] qapEx 1 5 7 11 writerEx (by decide) 0 (by decide)
     [(3, 0)] [] [(1, 0)] (by decide) (by decide) (by decide) 6 0 2
     (by decide) (by decide) (by decide)⟩

/-- C6: `is_unconstrained` returns `true` exactly when some entry of the `l`
query vector is the group identity; in particular, after a successful `eval`
run in which some wire is referenced by no constraint (its three entry lists
are empty), the evaluation with `l := ext` is detected as unconstrained. -/
theorem is_unconstrained_iff_identity_entry (we : WireEvaluation Fr) :
    (we.is_unconstrained = true ↔ ∃ p ∈ we.l, p.is_zero = true) ∧
    (∀ (lag : List Fr) (qap : KeyPairWires Fr) (n : Nat) (inv alpha beta : Fr)
      (w2 : EvaluationWriter Fr) (i : Nat),
      eval lag qap (identityWriter n) inv alpha beta = some (w2, Except.ok ()) →
      i < n → qap.a_t[i]? = some [] → qap.b_t[i]? = some [] →
      qap.c_t[i]? = some [] →
      ∀ aL bL b2L icL,
        (WireEvaluation.mk aL bL b2L icL w2.ext).is_unconstrained = true) := by
  constructor
  · exact List.any_eq_true
  · intro lag qap n inv alpha beta w2 i h hi hA hB hC aL bL b2L icL
    have hmain := eval_ok_getElem lag qap n inv alpha beta w2 h i hi [] [] []
      hA hB hC 0 0 0 rfl rfl rfl
    have hext := hmain.2.2.2
    have harg : ((0 : Fr) * beta + 0 * alpha + 0) * inv = 0 := by ring
    rw [harg] at hext
    have hz : (wnafScalar (0 : Fr)).is_zero = true := by
      simp [wnafScalar, ProjPoint.is_zero]
    have hmem : wnafScalar (0 : Fr) ∈ w2.ext := List.getElem?_mem hext
    simp only [WireEvaluation.is_unconstrained, List.any_eq_true]
    exact ⟨wnafScalar 0, hmem, hz⟩

theorem is_unconstrained_witness :
    eval [(1 : Int)] qapUnconstrained (identityWriter 1) 1 1 1
        = some (writerUnconstrained, Except.ok ()) ∧
    (WireEvaluation.mk [] [] [] [] writerUnconstrained.ext).is_unconstrained = true :=
  ⟨by decide,
   (is_unconstrained_iff_identity_entry ⟨[], [], [], [], []⟩).2
     [1] qapUnconstrained 1 1 1 1 writerUnconstrained 0 (by decide) (by decide)
     (by decide) (by decide) (by decide) [] [] [] []⟩

/-- C9: with the length sanity check satisfied, `eval` runs to completion
without an out-of-bounds access (its result is not the modelled panic `none`)
exactly when every constraint index stored in any wire's entry list of the
three polynomial columns is strictly below the length of the
Lagrange-coefficient array; the sanity check itself never inspects those
indices (it does not even receive the array). -/
theorem eval_total_iff_indices_in_bounds (lag : List Fr) (qap : KeyPairWires Fr)
    (writer : EvaluationWriter Fr) (inv alpha beta : Fr)
    (hs : sanity_check qap writer = true) :
    (eval lag qap writer inv alpha beta).isSome = true ↔
      ((∀ w ∈ qap.a_t, ∀ cw ∈ w, cw.2 < lag.length) ∧
       (∀ w ∈ qap.b_t, ∀ cw ∈ w, cw.2 < lag.length) ∧
       (∀ w ∈ qap.c_t, ∀ cw ∈ w, cw.2 < lag.length)) := by
  obtain ⟨hlA, hlB, hlC, hlB1, hlB2, hlE⟩ := (sanity_check_eq_true_iff qap writer).mp hs
  have hflen : writer.flatten.length = writer.a.length := by
    simp only [EvaluationWriter.flatten, List.length_zip]
    omega
  unfold eval
  rw [hs]
  simp only [Bool.true_eq_false, if_false, option_isSome_map]
  rw [evalLoop_isSome_iff]
  constructor
  · intro h
    have hone : ∀ (sel : KeyPairWires Fr → List (List (Fr × Nat))),
        sel qap = qap.a_t ∨ sel qap = qap.b_t ∨ sel qap = qap.c_t →
        (sel qap).length = writer.a.length →
        ∀ w ∈ sel qap, ∀ cw ∈ w, cw.2 < lag.length := by
      intro sel hsel hsellen w hw
      obtain ⟨i, hiw⟩ := List.mem_iff_getElem?.mp hw
      have hilt : i < writer.a.length := by
        have := (getElem?_isSome_iff_lt (sel qap) i).mp (by rw [hiw]; rfl)
        omega
      obtain ⟨c, hc⟩ := Option.isSome_iff_exists.mp
        ((getElem?_isSome_iff_lt writer.flatten i).mpr (by omega))
      obtain ⟨wA, hwA⟩ := Option.isSome_iff_exists.mp
        ((getElem?_isSome_iff_lt qap.a_t i).mpr (by omega))
      obtain ⟨wB, hwB⟩ := Option.isSome_iff_exists.mp
        ((getElem?_isSome_iff_lt qap.b_t i).mpr (by omega))
      obtain ⟨wC, hwC⟩ := Option.isSome_iff_exists.mp
        ((getElem?_isSome_iff_lt qap.c_t i).mpr (by omega))
      have hwire := h i c (wA, wB, wC) hc
        (keyPairWires_flatten_getElem qap i wA wB wC hwA hwB hwC)
      obtain ⟨h1, h2, h3⟩ := (evalWire_isSome_iff lag inv alpha beta c (wA, wB, wC)).mp hwire
      have hwsel : w = wA ∨ w = wB ∨ w = wC := by
        rcases hsel with hs1 | hs1 | hs1 <;> rw [hs1] at hiw
        · exact Or.inl (by rw [hiw] at hwA; exact (Option.some.injEq _ _ ▸ hwA).symm ▸ rfl)
        · exact Or.inr (Or.inl (by rw [hiw] at hwB; cases hwB; rfl))
        · exact Or.inr (Or.inr (by rw [hiw] at hwC; cases hwC; rfl))
      rcases hwsel with rfl | rfl | rfl
      · exact (eval_at_tau_isSome_iff lag w).mp h1
      · exact (eval_at_tau_isSome_iff lag w).mp h2
      · exact (eval_at_tau_isSome_iff lag w).mp h3
    refine ⟨hone (fun q => q.a_t) (Or.inl rfl) hlA,
        hone (fun q => q.b_t) (Or.inr (Or.inl rfl)) hlB,
        hone (fun q => q.c_t) (Or.inr (Or.inr rfl)) hlC⟩
  · rintro ⟨ha, hb, hc⟩ i c p hci hpi
    unfold KeyPairWires.flatten at hpi
    obtain ⟨hp1, hp23⟩ := List.getElem?_zip_eq_some.mp (by
      have : p = (p.1, p.2) := rfl
      rw [this] at hpi
      exact hpi)
    obtain ⟨hp2, hp3⟩ := List.getElem?_zip_eq_some.mp (by
      have : p.2 = (p.2.1, p.2.2) := rfl
      rw [this] at hp23
      exact hp23)
    rw [evalWire_isSome_iff]
    refine ⟨(eval_at_tau_isSome_iff lag p.1).mpr ?_,
        (eval_at_tau_isSome_iff lag p.2.1).mpr ?_,
        (eval_at_tau_isSome_iff lag p.2.2).mpr ?_⟩
    · exact ha p.1 (List.getElem?_mem hp1)
    · exact hb p.2.1 (List.getElem?_mem hp2)
    · exact hc p.2.2 (List.getElem?_mem hp3)

theorem eval_total_witness :
    sanity_check qapEx (identityWriter 1) = true ∧
    ((eval [(2 : Int)] qapEx (identityWriter 1) 5 7 11).isSome = true ↔
      ((∀ w ∈ qapEx.a_t, ∀ cw ∈ w, cw.2 < [(2 : Int)].length) ∧
       (∀ w ∈ qapEx.b_t, ∀ cw ∈ w, cw.2 < [(2 : Int)].length) ∧
       (∀ w ∈ qapEx.c_t, ∀ cw ∈ w, cw.2 < [(2 : Int)].length))) :=
  ⟨by decide,
   eval_total_iff_indices_in_bounds [2] qapEx (identityWriter 1) 5 7 11 (by decide)⟩

/-- C10: `filter_non_zero_and_map_to_affine` returns the tuple
`(l, a, b_g1, b_g2)` in that order, each vector restricted to its non-identity
elements converted to affine form; the relative order of surviving elements is
preserved (each result is a sublist of the affine image of its vector), and
identity entries are silently dropped, so each result's length is the count of
non-identity entries of its vector only. -/
theorem filter_non_zero_order_preserving (we : WireEvaluation Fr) :
    (we.filter_non_zero_and_map_to_affine
        = ((we.l.filter fun p => !p.is_zero).map ProjPoint.into_affine,
           (we.a.filter fun p => !p.is_zero).map ProjPoint.into_affine,
           (we.b_g1.filter fun p => !p.is_zero).map ProjPoint.into_affine,
           (we.b_g2.filter fun p => !p.is_zero).map ProjPoint.into_affine)) ∧
    (List.Sublist we.filter_non_zero_and_map_to_affine.1
        (we.l.map ProjPoint.into_affine) ∧
     List.Sublist we.filter_non_zero_and_map_to_affine.2.1
        (we.a.map ProjPoint.into_affine) ∧
     List.Sublist we.filter_non_zero_and_map_to_affine.2.2.1
        (we.b_g1.map ProjPoint.into_affine) ∧
     List.Sublist we.filter_non_zero_and_map_to_affine.2.2.2
        (we.b_g2.map ProjPoint.into_affine)) ∧
    (we.filter_non_zero_and_map_to_affine.1.length
        = we.l.countP (fun p => !p.is_zero) ∧
     we.filter_non_zero_and_map_to_affine.2.1.length
        = we.a.countP (fun p => !p.is_zero) ∧
     we.filter_non_zero_and_map_to_affine.2.2.1.length
        = we.b_g1.countP (fun p => !p.is_zero) ∧
     we.filter_non_zero_and_map_to_affine.2.2.2.length
        = we.b_g2.countP (fun p => !p.is_zero)) := by
  have key : ∀ l : List (ProjPoint Fr),
      filterNonZeroMapAffine l
        = (l.filter fun p => !p.is_zero).map ProjPoint.into_affine := by
    intro l
    induction l with
    | nil => rfl
    | cons p rest ih =>
      rcases hz : p.is_zero with _ | _ <;>
        simp [filterNonZeroMapAffine, List.filter_cons, hz, ih]
  have hsub : ∀ l : List (ProjPoint Fr),
      List.Sublist ((l.filter fun p => !p.is_zero).map ProjPoint.into_affine)
        (l.map ProjPoint.into_affine) :=
    fun l => List.Sublist.map ProjPoint.into_affine (List.filter_sublist l)
  have hlen : ∀ l : List (ProjPoint Fr),
      ((l.filter fun p => !p.is_zero).map ProjPoint.into_affine).length
        = l.countP (fun p => !p.is_zero) := by
    intro l
    rw [List.length_map, ← List.countP_eq_length_filter]
  refine ⟨?_, ?_, ?_⟩
  · simp only [WireEvaluation.filter_non_zero_and_map_to_affine, key]
  · simp only [WireEvaluation.filter_non_zero_and_map_to_affine, key]
    exact ⟨hsub we.l, hsub we.a, hsub we.b_g1, hsub we.b_g2⟩
  · simp only [WireEvaluation.filter_non_zero_and_map_to_affine, key]
    exact ⟨hlen we.l, hlen we.a, hlen we.b_g1, hlen we.b_g2⟩

/-- C2 (refuted by the code): on a one-wire circuit, a successful `eval` run
returns its writer with the `a` and `ext` entries still in non-normalized
projective form (`normd = false`), because
`FlatEvaluationWriter::batch_normalization` normalizes freshly filled local
buffers (`batchNormalizationBuffers`) and drops them without writing back;
the buffers the code discards are exactly the normalized vectors the claim
expects the writer to hold. -/
theorem eval_drops_batch_normalization :
    eval [(1 : Int)] qapBug (identityWriter 1) 1 1 1
        = some (writerBug, Except.ok ()) ∧
    writerBug.a = [⟨1, false⟩] ∧
    writerBug.ext = [⟨1, false⟩] ∧
    batchNormalizationBuffers writerBug
        = ⟨[⟨1, true⟩], [⟨0, true⟩], [⟨0, true⟩], [⟨1, true⟩]⟩ :=
  ⟨by decide, rfl, rfl, by decide⟩

end KeyGenLemmas

end Bellman
